import Mathlib

/-!
# Task composition and argument dispatch of `tapa.h`

A shallow embedding of `src/src/tapa.h`:

* `tapa::task` — the four `invoke` overloads, the `access` overloads that
  resolve an argument for one index of a vectorized invoke, and the calls
  made to `schedule`;
* `tapa::internal::dispatcher`, `tapa::internal::set_args` and the host-only
  `tapa::invoke` — the calls made on an `fpga::Instance`.

Stateful code is written in state-passing style.  Functions that are only
declared in the header (`task::schedule`, the methods of `fpga::Instance`,
`operator[]` of the container types) are not interpreted: the model records
the calls made to them, with their arguments, in order.
-/

namespace tapa

/-! ## Machine integers -/

/-- Conversion of a `uint64_t` to `int` (32 bits, two's complement), as done by
the `return idx;` of `access(seq, uint64_t)`: the value is reduced modulo
`2 ^ 32` and read as a signed number. -/
def uint64_to_int (n : Nat) : Int :=
  if n % 2 ^ 32 < 2 ^ 31 then ((n % 2 ^ 32 : Nat) : Int)
  else ((n % 2 ^ 32 : Nat) : Int) - 2 ^ 32

/-! ## Task composer: data model -/

/-- Which array overload of `access` wrote a log line: the text is
`"stream #"` for `streams` and `"async_mmap #"` for `mmaps`. -/
inductive ArrayKind where
  | stream
  | async_mmap
deriving DecidableEq, Repr

/-- One line written by `LOG_IF(INFO, idx >= length)`:
`"invocation #" << invocation << " accesses " << array << " #" << element`. -/
structure Diag where
  invocation : Nat
  array : ArrayKind
  element : Nat
deriving DecidableEq, Repr

/-- An argument of a vectorized invoke, classified by the `access` overload that
overload resolution selects for it.  `scalar` and `chars` both select the
generic `access(T&, uint64_t)`; `chars` is the case `T = const char[N]` (a
string literal), kept apart because such an argument in first position selects
the named overload of the scalar `invoke`.  `streams arg length` and
`mmaps arg length` are array objects `arg` of declared length `length`. -/
inductive Arg (α : Type) where
  | scalar (x : α)
  | chars (s : String)
  | seq
  | streams (arg : α) (length : Nat)
  | mmaps (arg : α) (length : Nat)
deriving DecidableEq, Repr

/-- A resolved argument, as handed to the scalar `invoke`: `ref x` is the object
`x` itself, `chars s` a character array, `int v` the `int` returned for a
`seq`, `stream arg idx` the result of `arg[idx]` on a `streams` object and
`mmap arg idx` the result of `arg[idx]` on an `mmaps` object. -/
inductive Bound (α : Type) where
  | ref (x : α)
  | chars (s : String)
  | int (v : Int)
  | stream (arg : α) (idx : Nat)
  | mmap (arg : α) (idx : Nat)
deriving DecidableEq, Repr

/-- One call of `schedule(detach, std::bind(f, args...))`: the detach flag and
the closure, given by the function and the arguments bound to it. -/
structure Invocation (α φ : Type) where
  detach : Bool
  f : φ
  args : List (Bound α)
deriving DecidableEq, Repr

/-- The state a `task` member function acts on: the calls made to `schedule`
so far, oldest first, and the lines logged so far. -/
structure task (α φ : Type) where
  scheduled : List (Invocation α φ)
  log : List Diag
deriving DecidableEq, Repr

namespace task

variable {α φ : Type}

/-! ## Task composer: operations -/

/-- The four `access` overloads (lines 72-96), selected by the variant of the
argument.  The result is the resolved argument and the lines logged.  For the
arrays the element is named by the index handed to `operator[]`.  A declared
length is at least 1 wherever a remainder is looked at (`idx % 0` is undefined
in C++). -/
def access : Arg α → Nat → Bound α × List Diag
  | .scalar x, _ => (.ref x, [])
  | .chars s, _ => (.chars s, [])
  | .seq, idx => (.int (uint64_to_int idx), [])
  | .streams arg length, idx =>
      (.stream arg idx, if idx ≥ length then [⟨idx, .stream, idx % length⟩] else [])
  | .mmaps arg length, idx =>
      (.mmap arg (idx % length),
        if idx ≥ length then [⟨idx, .async_mmap, idx % length⟩] else [])

/-- The pack expansion `access(args, i)...`: every argument is resolved for
index `i`. The log lines are collected in argument order (C++ leaves the order
in which the arguments of one call are evaluated open; no claim depends on it). -/
def resolve : List (Arg α) → Nat → List (Bound α) × List Diag
  | [], _ => ([], [])
  | a :: rest, i => ((access a i).1 :: (resolve rest i).1, (access a i).2 ++ (resolve rest i).2)

/-- The member `schedule(bool detach, const std::function<void()>&)` is declared
at line 98 and defined elsewhere; a call to it is recorded at the end of the
schedule. The closure `std::bind(f, args...)` is the pair of `f` and `args`. -/
def schedule (detach : Bool) (f : φ) (args : List (Bound α)) (t : task α φ) : task α φ :=
  { t with scheduled := t.scheduled ++ [⟨detach, f, args⟩] }

/-- Scalar invoke with a name (lines 49-53):
`schedule(step < 0, std::bind(f, args...)); return *this;`.
The returned reference is the task itself, in its new state. -/
def invoke_named (step : Int) (f : φ) (_name : String) (args : List (Bound α))
    (t : task α φ) : task α φ :=
  schedule (decide (step < 0)) f args t

/-- Scalar invoke without a name (lines 44-47): `return invoke<step>(f, "", args...);`.
The second argument `""` is a `const char` array, so the call selects the named
overload. -/
def invoke (step : Int) (f : φ) (args : List (Bound α)) (t : task α φ) : task α φ :=
  invoke_named step f "" args t

/-- Overload resolution of a call `invoke<step>(f, a...)` with only `step` given
explicitly: the two vector overloads cannot deduce `length`; of the two scalar
overloads the named one is more specialised and is selected exactly when the
first argument is a `const char` array, which then is the name. -/
def invoke_call (step : Int) (f : φ) : List (Bound α) → task α φ → task α φ
  | .chars name :: args, t => invoke_named step f name args t
  | args, t => invoke step f args t

/-- The loop `for (uint64_t i = 0; i < length; ++i) this->invoke<step>(f, access(args, i)...);`
(lines 65-67), with `remaining = length - i` iterations left. -/
def invoke_vec_loop (step : Int) (f : φ) (args : List (Arg α)) :
    Nat → Nat → task α φ → task α φ
  | 0, _, t => t
  | remaining + 1, i, t =>
      invoke_vec_loop step f args remaining (i + 1)
        (invoke_call step f (resolve args i).1 { t with log := t.log ++ (resolve args i).2 })

/-- Vectorized invoke with a name (lines 62-69). -/
def invoke_vec_named (step : Int) (length : Nat) (f : φ) (_name : String)
    (args : List (Arg α)) (t : task α φ) : task α φ :=
  invoke_vec_loop step f args length 0 t

/-- Vectorized invoke without a name (lines 56-59):
`return invoke<step, length>(f, "", args...);`. -/
def invoke_vec (step : Int) (length : Nat) (f : φ) (args : List (Arg α))
    (t : task α φ) : task α φ :=
  invoke_vec_named step length f "" args t

/-- The value of an argument that selects the generic `access(T&, uint64_t)`:
the object itself. Arguments of the other three variants have none. -/
def as_scalar : Arg α → Option (Bound α)
  | .scalar x => some (.ref x)
  | .chars s => some (.chars s)
  | _ => none

/-- The arguments that a call `invoke<step>(f, a...)` binds to `f`: all of them,
except a leading `const char` array, which is taken as the name. -/
def bound_args : List (Bound α) → List (Bound α)
  | .chars _ :: args => args
  | args => args

/-- Following the words of the specification: the vectorized form decomposes
into `length` scalar invocations, one per index `0 .. length - 1` in that
order, each on the arguments resolved for its index. -/
def invoke_vec_spec (step : Int) (length : Nat) (f : φ) (args : List (Arg α))
    (t : task α φ) : task α φ :=
  (List.range length).foldl
    (fun s i => invoke_call step f (resolve args i).1 { s with log := s.log ++ (resolve args i).2 })
    t

/-- Modelled from the spec: `operator[]` of the array containers `streams` and
`mmaps`, whose declarations (`tapa/stream.h`, `tapa/mmap.h`) are not among the
sources at hand. The specification describes both as fixed-length collections:
an element exists exactly for the indices below the declared length, and an
index at or above it is an out-of-range access. -/
def element_exists (length idx : Nat) : Bool :=
  decide (idx < length)

/-- The declared length of an array argument; other arguments have none. -/
def declared_length : Arg α → Option Nat
  | .streams _ length => some length
  | .mmaps _ length => some length
  | _ => none

/-- The index that was handed to `operator[]` to obtain a resolved argument;
resolved arguments that are not array elements have none. -/
def requested_element : Bound α → Option Nat
  | .stream _ idx => some idx
  | .mmap _ idx => some idx
  | _ => none

/-- Whether `access(arg, idx)` stays inside its argument: true unless it hands
`operator[]` of an array an index for which no element exists. -/
def access_in_range (a : Arg α) (idx : Nat) : Bool :=
  match declared_length a, requested_element (access a idx).1 with
  | some length, some e => element_exists length e
  | _, _ => true

end task

end tapa

/-! ## The execution instance, seen from the dispatcher -/

namespace fpga

/-- The buffer factories of the runtime that the dispatcher calls:
`fpga::Placeholder`, `fpga::ReadOnly`, `fpga::WriteOnly`, `fpga::ReadWrite`.
The names are with respect to the host. -/
inductive Tag where
  | Placeholder
  | ReadOnly
  | WriteOnly
  | ReadWrite
deriving DecidableEq, Repr

/-- The object made by `fpga::frt_tag(ptr, count)`: the factory, the data
pointer and the element count it was given. -/
structure Buffer (π : Type) where
  tag : Tag
  ptr : π
  count : Nat
deriving DecidableEq, Repr

/-- What `SetArg` is given: a plain value or a device buffer. -/
inductive Value (σ π : Type) where
  | scalar (v : σ)
  | buffer (b : Buffer π)
deriving DecidableEq, Repr

/-- The four protocol phases of an instance. -/
inductive Phase where
  | WriteToDevice
  | Exec
  | ReadFromDevice
  | Finish
deriving DecidableEq, Repr

/-- A call made on an `fpga::Instance`. -/
inductive Call (σ π : Type) where
  | SetArg (idx : Int) (v : Value σ π)
  | AllocBuf (idx : Int) (b : Buffer π)
  | phase (p : Phase)
deriving DecidableEq, Repr

/-- An `fpga::Instance`, as far as the header can see it: the bitstream it was
constructed from, the calls made on it so far, oldest first, and the phase
whose call did not return normally, if there is one. -/
structure Instance (σ π : Type) where
  bitstream : String
  calls : List (Call σ π)
  failure : Option Phase
deriving DecidableEq, Repr

namespace Instance

variable {σ π : Type}

/-- The call `instance.SetArg(idx, v)`. -/
def SetArg (inst : Instance σ π) (idx : Int) (v : Value σ π) : Instance σ π :=
  { inst with calls := inst.calls ++ [.SetArg idx v] }

/-- The call `instance.AllocBuf(idx, buf)`. -/
def AllocBuf (inst : Instance σ π) (idx : Int) (b : Buffer π) : Instance σ π :=
  { inst with calls := inst.calls ++ [.AllocBuf idx b] }

/-- A phase call, written as a statement of its own.  The header never looks at
a result of a phase, so a phase can only fail by not returning (it throws);
`fails p` says whether phase `p` does.  A statement that follows a failed call
is not reached. -/
def run (fails : Phase → Bool) (p : Phase) (inst : Instance σ π) : Instance σ π :=
  match inst.failure with
  | some _ => inst
  | none =>
      { inst with calls := inst.calls ++ [.phase p],
                  failure := if fails p then some p else none }

end Instance

/-- The four phases in the order of the calls at lines 174-177. -/
def protocol : List Phase := [.WriteToDevice, .Exec, .ReadFromDevice, .Finish]

/-- Following the words of the specification: the phases of a list that are
executed when no phase after a failure executes, the failed one being the last. -/
def executed_spec (fails : Phase → Bool) : List Phase → List Phase
  | [] => []
  | p :: rest => if fails p then [p] else p :: executed_spec fails rest

/-- The phases called, in call order. -/
def phases_called {σ π : Type} : List (Call σ π) → List Phase
  | [] => []
  | .phase p :: rest => p :: phases_called rest
  | _ :: rest => phases_called rest

end fpga

namespace tapa

/-- The direction tags for which `TAPA_DEFINE_DISPATCHER` is instantiated
(lines 148-152); the names are with respect to the kernel. -/
inductive Direction where
  | placeholder
  | read_only
  | write_only
  | read_write
deriving DecidableEq, Repr

/-- A `tag##_mmap<T>` object, as far as the dispatcher looks at it:
`arg.get()` and `arg.size()`. -/
structure Mmap (π : Type) where
  get : π
  size : Nat
deriving DecidableEq, Repr

/-- An argument of the host-only `invoke`, classified by the `dispatcher`
specialisation that its deduced type `Arg` selects: `mmap tag arg` when `Arg`
is `tag##_mmap<T>`, `mmaps tag arg` when `Arg` is `tag##_mmaps<T, S>` (the list
holds `arg[0] .. arg[S - 1]`), and `plain v` for every type that selects the
primary template. -/
inductive HostArg (σ π : Type) where
  | plain (v : σ)
  | mmap (tag : Direction) (arg : Mmap π)
  | mmaps (tag : Direction) (arg : List (Mmap π))
deriving DecidableEq, Repr

namespace internal

variable {σ π : Type}

/-- The second parameter of the four `TAPA_DEFINE_DISPATCHER(tag, frt_tag)`
lines (148-152). -/
def frt_tag : Direction → fpga.Tag
  | .placeholder => .Placeholder
  | .read_only => .WriteOnly
  | .write_only => .ReadOnly
  | .read_write => .ReadWrite

/-- The loop of `dispatcher<tag##_mmaps<T, S>>::set_arg` (lines 140-145) over
the elements `arg[i]` that are still to come. `idx` is an `int` passed by
reference; its new value is returned. Signed overflow of `++idx` is undefined
in C++, so there is no wrapped value: `idx` is a mathematical integer. -/
def dispatcher.set_arg_loop (tag : Direction) :
    List (Mmap π) → fpga.Instance σ π → Int → fpga.Instance σ π × Int
  | [], inst, idx => (inst, idx)
  | m :: rest, inst, idx =>
      let buf : fpga.Buffer π := ⟨frt_tag tag, m.get, m.size⟩
      dispatcher.set_arg_loop tag rest ((inst.AllocBuf idx buf).SetArg idx (.buffer buf)) (idx + 1)

/-- The three `dispatcher<T>::set_arg` bodies (lines 117-147). -/
def dispatcher.set_arg (inst : fpga.Instance σ π) (idx : Int) :
    HostArg σ π → fpga.Instance σ π × Int
  | .plain v => (inst.SetArg idx (.scalar v), idx + 1)
  | .mmap tag arg =>
      let buf : fpga.Buffer π := ⟨frt_tag tag, arg.get, arg.size⟩
      ((inst.AllocBuf idx buf).SetArg idx (.buffer buf), idx + 1)
  | .mmaps tag arg => dispatcher.set_arg_loop tag arg inst idx

/-- The two `set_args` overloads (lines 156-162). -/
def set_args (inst : fpga.Instance σ π) (idx : Int) : List (HostArg σ π) → fpga.Instance σ π
  | [] => inst
  | arg :: args =>
      set_args (dispatcher.set_arg inst idx arg).1 (dispatcher.set_arg inst idx arg).2 args

/-- Following the words of the specification: the number `n` of indices an
argument list takes, one per argument that is not an array and one per element
of an array. -/
def index_count : List (HostArg σ π) → Nat
  | [] => 0
  | .mmaps _ arg :: rest => arg.length + index_count rest
  | _ :: rest => 1 + index_count rest

/-- Following the words of the specification: the values to bind, one per index,
in declared order and, inside an array, in array order. -/
def slots_spec : List (HostArg σ π) → List (fpga.Value σ π)
  | [] => []
  | .plain v :: rest => .scalar v :: slots_spec rest
  | .mmap tag arg :: rest => .buffer ⟨frt_tag tag, arg.get, arg.size⟩ :: slots_spec rest
  | .mmaps tag arg :: rest =>
      arg.map (fun m => fpga.Value.buffer ⟨frt_tag tag, m.get, m.size⟩) ++ slots_spec rest

/-- Following the words of the specification: the calls that bind a list of
values at the indices `base, base + 1, ..`; a device buffer is allocated at the
index at which it is bound, right before it is bound. -/
def calls_spec (base : Int) : List (fpga.Value σ π) → List (fpga.Call σ π)
  | [] => []
  | .scalar v :: rest => .SetArg base (.scalar v) :: calls_spec (base + 1) rest
  | .buffer b :: rest =>
      .AllocBuf base b :: .SetArg base (.buffer b) :: calls_spec (base + 1) rest

end internal

/-- What the host-only `invoke` acts on: the direct calls `f(args...)` made and
the instances constructed, each in its final state, oldest first. -/
structure Host (σ π φ : Type) where
  called : List (φ × List (HostArg σ π))
  instances : List (fpga.Instance σ π)
deriving DecidableEq, Repr

/-- The host-only `invoke` (lines 167-179).  The result is the new host state
and the failure that leaves the call, if a phase failed. -/
def invoke {σ π φ : Type} (fails : fpga.Phase → Bool) (f : φ) (bitstream : String)
    (args : List (HostArg σ π)) (h : Host σ π φ) : Host σ π φ × Option fpga.Phase :=
  if bitstream.isEmpty then
    ({ h with called := h.called ++ [(f, args)] }, none)
  else
    let inst : fpga.Instance σ π := ⟨bitstream, [], none⟩
    let inst := internal.set_args inst 0 args
    let inst := inst.run fails .WriteToDevice
    let inst := inst.run fails .Exec
    let inst := inst.run fails .ReadFromDevice
    let inst := inst.run fails .Finish
    ({ h with instances := h.instances ++ [inst] }, inst.failure)

/-! ## Arguments at the call site -/

namespace internal

variable {σ π : Type}

end internal

end tapa

/-! ## Task composer: auxiliary lemmas -/

namespace tapa

namespace task

variable {α φ : Type}

theorem invoke_call_eq (step : Int) (f : φ) (bs : List (Bound α)) (t : task α φ) :
    invoke_call step f bs t =
      { scheduled := t.scheduled ++ [⟨decide (step < 0), f, bound_args bs⟩], log := t.log } := by
  unfold invoke_call bound_args
  split <;> simp_all [invoke, invoke_named, schedule]

theorem invoke_vec_loop_eq (step : Int) (f : φ) (args : List (Arg α)) (n i : Nat)
    (t : task α φ) :
    invoke_vec_loop step f args n i t =
      { scheduled := t.scheduled ++ (List.range' i n).map
          (fun k => ⟨decide (step < 0), f, bound_args (resolve args k).1⟩),
        log := t.log ++ (List.range' i n).flatMap (fun k => (resolve args k).2) } := by
  induction n generalizing i t with
  | zero => simp [invoke_vec_loop]
  | succ n ih =>
      rw [invoke_vec_loop, ih, invoke_call_eq]
      simp [List.range'_succ, List.append_assoc]

theorem invoke_vec_named_eq (step : Int) (length : Nat) (f : φ) (name : String)
    (args : List (Arg α)) (t : task α φ) :
    invoke_vec_named step length f name args t =
      { scheduled := t.scheduled ++ (List.range length).map
          (fun k => ⟨decide (step < 0), f, bound_args (resolve args k).1⟩),
        log := t.log ++ (List.range length).flatMap (fun k => (resolve args k).2) } := by
  rw [invoke_vec_named, invoke_vec_loop_eq, List.range_eq_range']

theorem invoke_vec_spec_eq (step : Int) (length : Nat) (f : φ)
    (args : List (Arg α)) (t : task α φ) :
    invoke_vec_spec step length f args t =
      { scheduled := t.scheduled ++ (List.range length).map
          (fun k => ⟨decide (step < 0), f, bound_args (resolve args k).1⟩),
        log := t.log ++ (List.range length).flatMap (fun k => (resolve args k).2) } := by
  unfold invoke_vec_spec
  induction length with
  | zero => simp
  | succ n ih =>
      rw [List.range_succ, List.foldl_append, ih]
      simp [invoke_call_eq, List.append_assoc]

theorem invoke_vec_named_getElem? (step : Int) (length : Nat) (f : φ) (name : String)
    (args : List (Arg α)) (t : task α φ) (i : Nat) (hi : i < length) :
    (invoke_vec_named step length f name args t).scheduled[t.scheduled.length + i]? =
      some ⟨decide (step < 0), f, bound_args (resolve args i).1⟩ := by
  rw [invoke_vec_named_eq]
  simp only []
  rw [List.getElem?_append_right (Nat.le_add_right _ _), Nat.add_sub_cancel_left,
    List.getElem?_map, List.getElem?_range hi]
  rfl

theorem resolve_getElem? (args : List (Arg α)) (i j : Nat) :
    (resolve args i).1[j]? = (args[j]?).map (fun a => (access a i).1) := by
  induction args generalizing j with
  | nil => simp [resolve]
  | cons a rest ih =>
      cases j with
      | zero => simp [resolve]
      | succ j => simp [resolve, ih]

theorem uint64_to_int_of_lt (i : Nat) (h : i < 2 ^ 31) : uint64_to_int i = (i : Int) := by
  have h1 : i % 2 ^ 32 = i := Nat.mod_eq_of_lt (by omega)
  unfold uint64_to_int
  rw [h1, if_pos h]

end task

end tapa

/-! ## Task composer: the claims -/

namespace tapa

namespace task

variable {α φ : Type}

/-- C1 (the code departs from the claim): a `streams` array of declared length 2
under a vectorized invoke of length 3. Invocation 2 is scheduled and a line is
logged for it that names stream `2 % 2 = 0`, but the element requested from the
array is `arg[2]`, not `arg[0]`. -/
theorem C1_streams_beyond_length_requests_idx :
    invoke_vec_named 0 3 (7 : Nat) "" [Arg.streams (0 : Nat) 2] ⟨[], []⟩ =
        { scheduled := [⟨false, 7, [.stream 0 0]⟩, ⟨false, 7, [.stream 0 1]⟩,
                        ⟨false, 7, [.stream 0 2]⟩],
          log := [⟨2, .stream, 0⟩] } ∧
      access (Arg.streams (0 : Nat) 2) 2 = (Bound.stream 0 2, [⟨2, .stream, 2 % 2⟩]) ∧
      (Bound.stream (0 : Nat) 2) ≠ Bound.stream 0 (2 % 2) := by
  decide

/-- C2: in a vectorized invoke of any length, an `mmaps` argument of declared
length `L ≥ 1` at argument position `j` is resolved for invocation `i` to
element `i % L` of the array, an element inside the array; the scalar call for
index `i` is made on the arguments so resolved. For `L = 2` and length 5 the
elements bound are 0, 1, 0, 1, 0. -/
theorem C2_mmaps_bind_idx_mod_length (step : Int) (length L i j : Nat) (f : φ)
    (name : String) (a : α) (args : List (Arg α)) (t : task α φ)
    (hL : 1 ≤ L) (hi : i < length) (hj : args[j]? = some (.mmaps a L)) :
    (invoke_vec_named step length f name args t).scheduled[t.scheduled.length + i]? =
        some ⟨decide (step < 0), f, bound_args (resolve args i).1⟩ ∧
      (resolve args i).1[j]? = some (.mmap a (i % L)) ∧
      i % L < L ∧
      (invoke_vec_named step 5 f name [Arg.mmaps a 2] ⟨[], []⟩).scheduled.map
          (fun inv => inv.args) =
        [[.mmap a 0], [.mmap a 1], [.mmap a 0], [.mmap a 1], [.mmap a 0]] := by
  refine ⟨invoke_vec_named_getElem? step length f name args t i hi, ?_, ?_, ?_⟩
  · rw [resolve_getElem?, hj]
    rfl
  · exact Nat.mod_lt _ hL
  · rfl

/-- C2 at a concrete input: two buffers, five invocations, invocation 4. -/
theorem C2_mmaps_bind_idx_mod_length_witness :
    (1 ≤ 2 ∧ 4 < 5 ∧ [Arg.mmaps (0 : Nat) 2][0]? = some (.mmaps 0 2)) ∧
    ((invoke_vec_named 0 5 (7 : Nat) "" [Arg.mmaps (0 : Nat) 2] ⟨[], []⟩).scheduled[
          (⟨[], []⟩ : task Nat Nat).scheduled.length + 4]? =
        some ⟨decide ((0 : Int) < 0), 7, bound_args (resolve [Arg.mmaps (0 : Nat) 2] 4).1⟩ ∧
      (resolve [Arg.mmaps (0 : Nat) 2] 4).1[0]? = some (.mmap 0 (4 % 2)) ∧
      4 % 2 < 2 ∧
      (invoke_vec_named 0 5 (7 : Nat) "" [Arg.mmaps (0 : Nat) 2] ⟨[], []⟩).scheduled.map
          (fun inv => inv.args) =
        [[.mmap 0 0], [.mmap 0 1], [.mmap 0 0], [.mmap 0 1], [.mmap 0 0]]) :=
  ⟨⟨by decide, by decide, rfl⟩,
    C2_mmaps_bind_idx_mod_length 0 5 2 4 0 7 "" 0 [Arg.mmaps 0 2] ⟨[], []⟩
      (by decide) (by decide) rfl⟩

/-- C3: in a vectorized invoke whose length is the declared length `L` of a
`streams` argument at position `j`, invocation `i < L` is resolved to `arg[i]`,
the element of the same index, and nothing is logged for it; with the array as
only argument the elements bound are `0, 1, .., L - 1` in this order. -/
theorem C3_streams_bind_idx_when_length_matches (step : Int) (L i j : Nat) (f : φ)
    (name : String) (a : α) (args : List (Arg α)) (t : task α φ)
    (hi : i < L) (hj : args[j]? = some (.streams a L)) :
    (invoke_vec_named step L f name args t).scheduled[t.scheduled.length + i]? =
        some ⟨decide (step < 0), f, bound_args (resolve args i).1⟩ ∧
      (resolve args i).1[j]? = some (.stream a i) ∧
      (access (.streams a L) i).2 = [] ∧
      invoke_vec_named step L f name [Arg.streams a L] t =
        { scheduled := t.scheduled ++
            (List.range L).map (fun k => ⟨decide (step < 0), f, [.stream a k]⟩),
          log := t.log } := by
  refine ⟨invoke_vec_named_getElem? step L f name args t i hi, ?_, ?_, ?_⟩
  · rw [resolve_getElem?, hj]
    rfl
  · simp [access, hi]
  · rw [invoke_vec_named_eq]
    have h : ∀ k ∈ List.range L, (resolve [Arg.streams a L] k).2 = [] := by
      intro k hk
      have hk' : k < L := List.mem_range.mp hk
      simp [resolve, access, hk']
    have h2 : (List.range L).flatMap (fun k => (resolve [Arg.streams a L] k).2) = [] := by
      rw [List.flatMap_eq_nil_iff]
      exact h
    rw [h2, List.append_nil]
    rfl

/-- C3 at a concrete input: three channels, three invocations, invocation 2. -/
theorem C3_streams_bind_idx_when_length_matches_witness :
    (2 < 3 ∧ [Arg.streams (0 : Nat) 3][0]? = some (.streams 0 3)) ∧
    ((invoke_vec_named 0 3 (7 : Nat) "" [Arg.streams (0 : Nat) 3] ⟨[], []⟩).scheduled[
          (⟨[], []⟩ : task Nat Nat).scheduled.length + 2]? =
        some ⟨decide ((0 : Int) < 0), 7, bound_args (resolve [Arg.streams (0 : Nat) 3] 2).1⟩ ∧
      (resolve [Arg.streams (0 : Nat) 3] 2).1[0]? = some (.stream 0 2) ∧
      (access (Arg.streams (0 : Nat) 3) 2).2 = [] ∧
      invoke_vec_named 0 3 (7 : Nat) "" [Arg.streams (0 : Nat) 3] ⟨[], []⟩ =
        { scheduled := ([] : List (Invocation Nat Nat)) ++
            (List.range 3).map (fun k => ⟨decide ((0 : Int) < 0), 7, [.stream 0 k]⟩),
          log := [] }) :=
  ⟨⟨by decide, rfl⟩,
    C3_streams_bind_idx_when_length_matches 0 3 2 0 7 "" 0 [Arg.streams 0 3] ⟨[], []⟩
      (by decide) rfl⟩

end task

end tapa

namespace tapa

namespace task

variable {α φ : Type}

/-- C4 (fails as stated): with a `seq` as only argument and `2 ^ 31 + 1`
invocations, invocation `2 ^ 31` is bound to the `int` value `-2147483648`, not
to `2 ^ 31`. -/
theorem C4_seq_beyond_int_range_counterexample :
    (invoke_vec_named 0 (2 ^ 31 + 1) (7 : Nat) "" [(Arg.seq : Arg Nat)]
        ⟨[], []⟩).scheduled[2 ^ 31]? = some ⟨false, 7, [.int (-2147483648)]⟩ ∧
      (invoke_vec_named 0 (2 ^ 31 + 1) (7 : Nat) "" [(Arg.seq : Arg Nat)]
        ⟨[], []⟩).scheduled[2 ^ 31]? ≠ some ⟨false, 7, [.int ((2 ^ 31 : Nat) : Int)]⟩ := by
  have h := invoke_vec_named_getElem? 0 (2 ^ 31 + 1) (7 : Nat) ""
    [(Arg.seq : Arg Nat)] ⟨[], []⟩ (2 ^ 31) (by norm_num)
  have hv : uint64_to_int (2 ^ 31) = -2147483648 := by decide
  have e : (invoke_vec_named 0 (2 ^ 31 + 1) (7 : Nat) "" [(Arg.seq : Arg Nat)]
        ⟨[], []⟩).scheduled[2 ^ 31]? = some ⟨false, 7, [.int (-2147483648)]⟩ := by
    simpa [resolve, access, bound_args, hv] using h
  refine ⟨e, ?_⟩
  rw [e]
  decide

/-- C4 (amended): in a vectorized invoke, a `seq` argument at position `j` is
resolved for invocation `i` to exactly the integer `i` whenever `i < 2 ^ 31`;
the scalar call for index `i` is made on the arguments so resolved. -/
theorem C4_seq_bind_index_within_int_range (step : Int) (length i j : Nat) (f : φ)
    (name : String) (args : List (Arg α)) (t : task α φ)
    (hi : i < length) (h31 : i < 2 ^ 31) (hj : args[j]? = some .seq) :
    (invoke_vec_named step length f name args t).scheduled[t.scheduled.length + i]? =
        some ⟨decide (step < 0), f, bound_args (resolve args i).1⟩ ∧
      (resolve args i).1[j]? = some (.int (i : Int)) := by
  refine ⟨invoke_vec_named_getElem? step length f name args t i hi, ?_⟩
  rw [resolve_getElem?, hj]
  simp [access, uint64_to_int_of_lt i h31]

/-- C4 (amended) at a concrete input: five invocations, invocation 3. -/
theorem C4_seq_bind_index_within_int_range_witness :
    (3 < 5 ∧ 3 < 2 ^ 31 ∧ [(Arg.seq : Arg Nat)][0]? = some .seq) ∧
    ((invoke_vec_named 0 5 (7 : Nat) "" [(Arg.seq : Arg Nat)] ⟨[], []⟩).scheduled[
          (⟨[], []⟩ : task Nat Nat).scheduled.length + 3]? =
        some ⟨decide ((0 : Int) < 0), 7, bound_args (resolve [(Arg.seq : Arg Nat)] 3).1⟩ ∧
      (resolve [(Arg.seq : Arg Nat)] 3).1[0]? = some (.int ((3 : Nat) : Int))) :=
  ⟨⟨by decide, by decide, rfl⟩,
    C4_seq_bind_index_within_int_range 0 5 3 0 7 "" [Arg.seq] ⟨[], []⟩
      (by decide) (by decide) rfl⟩

/-- C5: an argument `a` that selects the generic `access(T&, uint64_t)` is
resolved to the same object `b` for every index and nothing is logged; in a
vectorized invoke with `a` at position `j`, the scalar call of every invocation
`i` is made on a list whose entry `j` is `b`. With a scalar `x` as only
argument all `length` invocations are the same one, bound to `x`. -/
theorem C5_scalar_broadcast (step : Int) (length i j : Nat) (f : φ) (name : String)
    (a : Arg α) (b : Bound α) (x : α) (args : List (Arg α)) (t : task α φ)
    (hi : i < length) (ha : as_scalar a = some b) (hj : args[j]? = some a) :
    access a i = (b, []) ∧
      (invoke_vec_named step length f name args t).scheduled[t.scheduled.length + i]? =
        some ⟨decide (step < 0), f, bound_args (resolve args i).1⟩ ∧
      (resolve args i).1[j]? = some b ∧
      invoke_vec_named step length f name [Arg.scalar x] t =
        { scheduled := t.scheduled ++
            List.replicate length ⟨decide (step < 0), f, [.ref x]⟩,
          log := t.log } := by
  have hacc : access a i = (b, []) := by
    cases a <;> simp_all [as_scalar, access]
  refine ⟨hacc, invoke_vec_named_getElem? step length f name args t i hi, ?_, ?_⟩
  · rw [resolve_getElem?, hj]
    simp [hacc]
  · rw [invoke_vec_named_eq]
    have h1 : (List.range length).map
        (fun k => (⟨decide (step < 0), f, bound_args (resolve [Arg.scalar x] k).1⟩ :
          Invocation α φ)) = List.replicate length ⟨decide (step < 0), f, [.ref x]⟩ := by
      apply List.ext_getElem?
      intro n
      rw [List.getElem?_map, List.getElem?_replicate]
      by_cases hn : n < length
      · rw [List.getElem?_range hn, if_pos hn]
        rfl
      · rw [if_neg hn, List.getElem?_eq_none (by simpa using hn)]
        rfl
    have h2 : (List.range length).flatMap (fun k => (resolve [Arg.scalar x] k).2) = [] := by
      rw [List.flatMap_eq_nil_iff]
      intro k _
      rfl
    rw [h1, h2, List.append_nil]

/-- C5 at a concrete input: one scalar, four invocations, invocation 3. -/
theorem C5_scalar_broadcast_witness :
    (3 < 4 ∧ as_scalar (Arg.scalar (9 : Nat)) = some (.ref 9) ∧
      [Arg.scalar (9 : Nat)][0]? = some (.scalar 9)) ∧
    (access (Arg.scalar (9 : Nat)) 3 = (.ref 9, []) ∧
      (invoke_vec_named 0 4 (7 : Nat) "" [Arg.scalar (9 : Nat)] ⟨[], []⟩).scheduled[
          (⟨[], []⟩ : task Nat Nat).scheduled.length + 3]? =
        some ⟨decide ((0 : Int) < 0), 7, bound_args (resolve [Arg.scalar (9 : Nat)] 3).1⟩ ∧
      (resolve [Arg.scalar (9 : Nat)] 3).1[0]? = some (.ref 9) ∧
      invoke_vec_named 0 4 (7 : Nat) "" [Arg.scalar (9 : Nat)] ⟨[], []⟩ =
        { scheduled := ([] : List (Invocation Nat Nat)) ++
            List.replicate 4 ⟨decide ((0 : Int) < 0), 7, [.ref 9]⟩,
          log := [] }) :=
  ⟨⟨by decide, rfl, rfl⟩,
    C5_scalar_broadcast 0 4 3 0 7 "" (Arg.scalar 9) (.ref 9) 9 [Arg.scalar 9] ⟨[], []⟩
      (by decide) rfl rfl⟩

/-- C6: for every `step` and every `length`, zero included, both vectorized
forms do what `length` scalar calls `invoke<step>` on the arguments resolved
for the indices `0, 1, .., length - 1`, in this order, do: exactly `length`
invocations are added to the schedule, all of the same function and all with
the detach flag `step < 0`. -/
theorem C6_invoke_vec_is_length_scalar_invokes (step : Int) (length : Nat) (f : φ)
    (name : String) (args : List (Arg α)) (t : task α φ) :
    invoke_vec_named step length f name args t = invoke_vec_spec step length f args t ∧
      invoke_vec step length f args t = invoke_vec_spec step length f args t ∧
      (invoke_vec_named step length f name args t).scheduled =
        t.scheduled ++ (List.range length).map
          (fun i => ⟨decide (step < 0), f, bound_args (resolve args i).1⟩) ∧
      (invoke_vec_named step length f name args t).scheduled.length =
        t.scheduled.length + length ∧
      (∀ inv ∈ (invoke_vec_named step length f name args t).scheduled.drop t.scheduled.length,
        inv.f = f ∧ (inv.detach = true ↔ step < 0)) := by
  refine ⟨?_, ?_, ?_, ?_, ?_⟩
  · rw [invoke_vec_named_eq, invoke_vec_spec_eq]
  · rw [invoke_vec, invoke_vec_named_eq, invoke_vec_spec_eq]
  · rw [invoke_vec_named_eq]
  · rw [invoke_vec_named_eq]
    simp
  · rw [invoke_vec_named_eq]
    intro inv hinv
    simp only [List.drop_left, List.mem_map] at hinv
    obtain ⟨k, _, rfl⟩ := hinv
    simp

/-- C7: for every `step`, both scalar forms add exactly one invocation to the
schedule, with the arguments bound to the function as given and with the detach
flag true exactly when `step < 0`; the result is the same task, so a second call
chained on it adds its invocation after the first. A call `invoke<step>(f, a...)`
resolved among the two binds all of `a` except a leading name. -/
theorem C7_scalar_invoke_schedules_once (step : Int) (f : φ) (name : String)
    (args : List (Bound α)) (t : task α φ) :
    invoke_named step f name args t =
        { scheduled := t.scheduled ++ [⟨decide (step < 0), f, args⟩], log := t.log } ∧
      invoke step f args t =
        { scheduled := t.scheduled ++ [⟨decide (step < 0), f, args⟩], log := t.log } ∧
      invoke_call step f args t =
        { scheduled := t.scheduled ++ [⟨decide (step < 0), f, bound_args args⟩],
          log := t.log } ∧
      (decide (step < 0) = true ↔ step < 0) ∧
      (∀ (step2 : Int) (g : φ) (name2 : String) (args2 : List (Bound α)),
        invoke_named step2 g name2 args2 (invoke_named step f name args t) =
          { scheduled := t.scheduled ++
              [⟨decide (step < 0), f, args⟩, ⟨decide (step2 < 0), g, args2⟩],
            log := t.log }) := by
  refine ⟨rfl, rfl, invoke_call_eq step f args t, by simp, ?_⟩
  intro step2 g name2 args2
  simp [invoke_named, schedule]

end task

end tapa

/-! ## Execution dispatcher: auxiliary lemmas -/

namespace tapa

namespace internal

variable {σ π : Type}

theorem calls_spec_append (base : Int) (xs ys : List (fpga.Value σ π)) :
    calls_spec base (xs ++ ys) = calls_spec base xs ++ calls_spec (base + xs.length) ys := by
  induction xs generalizing base with
  | nil => simp [calls_spec]
  | cons x rest ih =>
      cases x <;>
        simp [calls_spec, ih, add_assoc, add_comm (1 : Int)]

theorem set_arg_loop_eq (tag : Direction) (ms : List (Mmap π)) (inst : fpga.Instance σ π)
    (idx : Int) :
    dispatcher.set_arg_loop tag ms inst idx =
      ({ inst with
          calls := inst.calls ++ calls_spec idx
            (ms.map (fun m => fpga.Value.buffer ⟨frt_tag tag, m.get, m.size⟩)) },
        idx + ms.length) := by
  induction ms generalizing inst idx with
  | nil => simp [dispatcher.set_arg_loop, calls_spec]
  | cons m rest ih =>
      rw [dispatcher.set_arg_loop, ih]
      simp [fpga.Instance.SetArg, fpga.Instance.AllocBuf, calls_spec, add_assoc,
        add_comm (1 : Int)]

theorem set_arg_eq (inst : fpga.Instance σ π) (idx : Int) (arg : HostArg σ π) :
    dispatcher.set_arg inst idx arg =
      ({ inst with calls := inst.calls ++ calls_spec idx (slots_spec [arg]) },
        idx + index_count [arg]) := by
  cases arg with
  | plain v =>
      simp [dispatcher.set_arg, fpga.Instance.SetArg, slots_spec, calls_spec, index_count]
  | mmap tag arg =>
      simp [dispatcher.set_arg, fpga.Instance.SetArg, fpga.Instance.AllocBuf, slots_spec,
        calls_spec, index_count]
  | mmaps tag arg =>
      simp [dispatcher.set_arg, set_arg_loop_eq, slots_spec, index_count]

theorem slots_spec_length (args : List (HostArg σ π)) :
    (slots_spec args).length = index_count args := by
  induction args with
  | nil => rfl
  | cons a rest ih =>
      cases a <;> simp [slots_spec, index_count, ih, add_comm]

theorem slots_spec_cons (a : HostArg σ π) (rest : List (HostArg σ π)) :
    slots_spec (a :: rest) = slots_spec [a] ++ slots_spec rest := by
  cases a <;> simp [slots_spec]

theorem set_args_eq (inst : fpga.Instance σ π) (idx : Int) (args : List (HostArg σ π)) :
    set_args inst idx args =
      { inst with calls := inst.calls ++ calls_spec idx (slots_spec args) } := by
  induction args generalizing inst idx with
  | nil => simp [set_args, slots_spec, calls_spec]
  | cons a rest ih =>
      rw [set_args, ih, set_arg_eq, slots_spec_cons a rest, calls_spec_append,
        slots_spec_length]
      simp [List.append_assoc]

end internal

theorem executed_spec_split (fails : fpga.Phase → Bool) (pre post : List fpga.Phase)
    (p : fpga.Phase) (hpre : ∀ q ∈ pre, fails q = false) (hp : fails p = true) :
    fpga.executed_spec fails (pre ++ p :: post) = pre ++ [p] ∧
      (pre ++ p :: post).find? fails = some p := by
  induction pre with
  | nil => simp [fpga.executed_spec, hp]
  | cons q rest ih =>
      have hq : fails q = false := hpre q (List.mem_cons_self _ _)
      have hrest : ∀ r ∈ rest, fails r = false :=
        fun r hr => hpre r (List.mem_cons_of_mem _ hr)
      obtain ⟨h1, h2⟩ := ih hrest
      simp [fpga.executed_spec, hq, h1, h2]

end tapa

namespace tapa

namespace internal

variable {σ π : Type}

theorem phases_called_append (xs ys : List (fpga.Call σ π)) :
    fpga.phases_called (xs ++ ys) = fpga.phases_called xs ++ fpga.phases_called ys := by
  induction xs with
  | nil => rfl
  | cons c rest ih => cases c <;> simp [fpga.phases_called, ih]

theorem phases_called_calls_spec (base : Int) (vs : List (fpga.Value σ π)) :
    fpga.phases_called (calls_spec base vs) = [] := by
  induction vs generalizing base with
  | nil => rfl
  | cons v rest ih => cases v <;> simp [calls_spec, fpga.phases_called, ih]

theorem phases_called_map_phase (ps : List fpga.Phase) :
    fpga.phases_called (ps.map (fun p => (fpga.Call.phase p : fpga.Call σ π))) = ps := by
  induction ps with
  | nil => rfl
  | cons p rest ih => simp [fpga.phases_called, ih]

end internal

end tapa

/-! ## Execution dispatcher: the claims -/

namespace tapa

variable {σ π φ : Type}

/-- C10: with a descriptor that is not empty, the host-only `invoke` constructs
one instance, binds the arguments and then executes the phases
transfer-to-device, execute, transfer-from-device, finalize in this order; when
no phase fails, each of the four is executed exactly once and no failure leaves
the call; when a phase fails, the phases before it and the failed one are the
only phases executed and its failure leaves the call. The calls that bind the
arguments contain no phase call. -/
theorem C10_phases_in_order_until_failure (fails : fpga.Phase → Bool) (f : φ)
    (bitstream : String) (args : List (HostArg σ π)) (h : Host σ π φ)
    (hb : bitstream.isEmpty = false) :
    invoke fails f bitstream args h =
        ({ h with
            instances := h.instances ++
              [⟨bitstream,
                (internal.set_args ⟨bitstream, [], none⟩ 0 args).calls ++
                  (fpga.executed_spec fails fpga.protocol).map fpga.Call.phase,
                fpga.protocol.find? fails⟩] },
          fpga.protocol.find? fails) ∧
      fpga.phases_called
          ((internal.set_args (⟨bitstream, [], none⟩ : fpga.Instance σ π) 0 args).calls ++
            (fpga.executed_spec fails fpga.protocol).map fpga.Call.phase) =
        fpga.executed_spec fails fpga.protocol ∧
      ((∀ p, fails p = false) →
        fpga.executed_spec fails fpga.protocol =
            [.WriteToDevice, .Exec, .ReadFromDevice, .Finish] ∧
          fpga.protocol.find? fails = none) ∧
      (∀ (pre post : List fpga.Phase) (p : fpga.Phase),
        fpga.protocol = pre ++ p :: post → (∀ q ∈ pre, fails q = false) → fails p = true →
          fpga.executed_spec fails fpga.protocol = pre ++ [p] ∧
            fpga.protocol.find? fails = some p) := by
  refine ⟨?_, ?_, ?_, ?_⟩
  rotate_left
  · rw [internal.phases_called_append, internal.set_args_eq]
    simp only [List.nil_append, internal.phases_called_calls_spec]
    exact internal.phases_called_map_phase _
  rotate_right
  · unfold invoke
    rw [hb]
    simp only [Bool.false_eq_true, if_false, internal.set_args_eq]
    cases h1 : fails .WriteToDevice <;> cases h2 : fails .Exec <;>
      cases h3 : fails .ReadFromDevice <;> cases h4 : fails .Finish <;>
      simp [fpga.Instance.run, fpga.executed_spec, fpga.protocol, h1, h2, h3, h4]
  · intro hall
    simp [fpga.executed_spec, fpga.protocol, hall]
  · intro pre post p hsplit hpre hp
    rw [hsplit]
    exact executed_spec_split fails pre post p hpre hp

end tapa

namespace tapa

/-- C10 at a concrete input: a scalar and a read-only buffer, the execute phase
fails. -/
theorem C10_phases_in_order_until_failure_witness :
    ("vadd.xclbin".isEmpty = false) ∧
    (invoke (fun p => decide (p = fpga.Phase.Exec)) (7 : Nat) "vadd.xclbin"
          [HostArg.plain (5 : Nat), HostArg.mmap .read_only (⟨100, 4⟩ : Mmap Nat)]
          (⟨[], []⟩ : Host Nat Nat Nat) =
        ({ (⟨[], []⟩ : Host Nat Nat Nat) with
            instances := (⟨[], []⟩ : Host Nat Nat Nat).instances ++
              [⟨"vadd.xclbin",
                (internal.set_args ⟨"vadd.xclbin", [], none⟩ 0
                    [HostArg.plain (5 : Nat),
                     HostArg.mmap .read_only (⟨100, 4⟩ : Mmap Nat)]).calls ++
                  (fpga.executed_spec (fun p => decide (p = fpga.Phase.Exec))
                    fpga.protocol).map fpga.Call.phase,
                fpga.protocol.find? (fun p => decide (p = fpga.Phase.Exec))⟩] },
          fpga.protocol.find? (fun p => decide (p = fpga.Phase.Exec))) ∧
      fpga.phases_called
          ((internal.set_args (⟨"vadd.xclbin", [], none⟩ : fpga.Instance Nat Nat) 0
              [HostArg.plain (5 : Nat),
               HostArg.mmap .read_only (⟨100, 4⟩ : Mmap Nat)]).calls ++
            (fpga.executed_spec (fun p => decide (p = fpga.Phase.Exec))
              fpga.protocol).map fpga.Call.phase) =
        fpga.executed_spec (fun p => decide (p = fpga.Phase.Exec)) fpga.protocol ∧
      ((∀ p, (fun p => decide (p = fpga.Phase.Exec)) p = false) →
        fpga.executed_spec (fun p => decide (p = fpga.Phase.Exec)) fpga.protocol =
            [.WriteToDevice, .Exec, .ReadFromDevice, .Finish] ∧
          fpga.protocol.find? (fun p => decide (p = fpga.Phase.Exec)) = none) ∧
      (∀ (pre post : List fpga.Phase) (p : fpga.Phase),
        fpga.protocol = pre ++ p :: post →
          (∀ q ∈ pre, (fun p => decide (p = fpga.Phase.Exec)) q = false) →
          (fun p => decide (p = fpga.Phase.Exec)) p = true →
          fpga.executed_spec (fun p => decide (p = fpga.Phase.Exec)) fpga.protocol =
              pre ++ [p] ∧
            fpga.protocol.find? (fun p => decide (p = fpga.Phase.Exec)) = some p)) :=
  ⟨by decide,
    C10_phases_in_order_until_failure (fun p => decide (p = fpga.Phase.Exec)) 7 "vadd.xclbin"
      [HostArg.plain 5, HostArg.mmap .read_only ⟨100, 4⟩] ⟨[], []⟩ (by decide)⟩

end tapa

/-! ## Host-only invoke: the two modes -/

namespace tapa

variable {σ π φ : Type}

theorem run_bitstream (fails : fpga.Phase → Bool) (p : fpga.Phase) (inst : fpga.Instance σ π) :
    (inst.run fails p).bitstream = inst.bitstream := by
  unfold fpga.Instance.run
  split <;> rfl

/-- C11: with the empty descriptor the host-only `invoke` makes exactly one
direct call `f(args...)`, on the arguments in their given order, returns
without a failure and leaves the instances as they were (none is constructed,
so nothing is allocated, bound or run); with a descriptor that is not empty it
makes no direct call and constructs exactly one instance, from that
descriptor. -/
theorem C11_descriptor_selects_mode (fails : fpga.Phase → Bool) (f : φ)
    (bitstream : String) (args : List (HostArg σ π)) (h : Host σ π φ) :
    invoke fails f "" args h = ({ h with called := h.called ++ [(f, args)] }, none) ∧
      (bitstream.isEmpty = true →
        invoke fails f bitstream args h =
          ({ called := h.called ++ [(f, args)], instances := h.instances }, none)) ∧
      (bitstream.isEmpty = false →
        (invoke fails f bitstream args h).1.called = h.called ∧
          ∃ inst : fpga.Instance σ π,
            (invoke fails f bitstream args h).1.instances = h.instances ++ [inst] ∧
              inst.bitstream = bitstream) := by
  refine ⟨rfl, ?_, ?_⟩
  · intro hb
    unfold invoke
    rw [hb]
    rfl
  · intro hb
    unfold invoke
    rw [hb]
    refine ⟨rfl, _, rfl, ?_⟩
    simp only [run_bitstream, internal.set_args_eq]

/-- C11 at concrete inputs: the empty descriptor and `"vadd.xclbin"`. -/
theorem C11_descriptor_selects_mode_witness :
    (invoke (fun _ => false) (7 : Nat) "" [HostArg.plain (5 : Nat)]
          (⟨[], []⟩ : Host Nat Nat Nat) =
        ({ called := [(7, [HostArg.plain 5])], instances := [] }, none)) ∧
      ((invoke (fun _ => false) (7 : Nat) "vadd.xclbin" [HostArg.plain (5 : Nat)]
            (⟨[], []⟩ : Host Nat Nat Nat)).1.called = [] ∧
        ∃ inst : fpga.Instance Nat Nat,
          (invoke (fun _ => false) (7 : Nat) "vadd.xclbin" [HostArg.plain (5 : Nat)]
              (⟨[], []⟩ : Host Nat Nat Nat)).1.instances = [] ++ [inst] ∧
            inst.bitstream = "vadd.xclbin") :=
  ⟨(C11_descriptor_selects_mode (fun _ => false) 7 "" [HostArg.plain 5]
      (⟨[], []⟩ : Host Nat Nat Nat)).2.1 (by decide),
    (C11_descriptor_selects_mode (fun _ => false) 7 "vadd.xclbin" [HostArg.plain 5]
      (⟨[], []⟩ : Host Nat Nat Nat)).2.2 (by decide)⟩

end tapa

/-! ## Task composer: range of the array accesses, diagnostics and names -/

namespace tapa

namespace task

variable {α φ : Type}

theorem mod_lt_self_of_le (L i : Nat) (hL : 1 ≤ L) (hi : L ≤ i) : i % L < i :=
  Nat.lt_of_lt_of_le (Nat.mod_lt i hL) hi

/-- C12 (the code departs from the claim): resolution is a function of the
argument and the index and stays inside its argument for a scalar, a `seq`, an
`mmaps` array of length `L ≥ 1` and a `streams` array at an index below its
length; but for a `streams` array of length 2 and index 2, which a vectorized
invoke of length 3 reaches, `access` requests `arg[2]`, for which no element
exists, and so it does at every index at or above the declared length. -/
theorem C12_streams_access_leaves_array_beyond_length :
    (resolve [Arg.streams (0 : Nat) 2] 2).1 = [Bound.stream 0 2] ∧
      access_in_range (Arg.streams (0 : Nat) 2) 2 = false ∧
      (invoke_vec_named 0 3 (7 : Nat) "" [Arg.streams (0 : Nat) 2] ⟨[], []⟩).scheduled[2]? =
        some ⟨false, 7, [Bound.stream 0 2]⟩ ∧
      (∀ (a : α) (L i : Nat), L ≤ i → access_in_range (Arg.streams a L) i = false) ∧
      (∀ (a : α) (L i : Nat), i < L → access_in_range (Arg.streams a L) i = true) ∧
      (∀ (a : α) (L i : Nat), 1 ≤ L → access_in_range (Arg.mmaps a L) i = true) ∧
      (∀ (x : α) (i : Nat), access_in_range (Arg.scalar x) i = true) ∧
      (∀ (s : String) (i : Nat), access_in_range (Arg.chars s : Arg α) i = true) ∧
      (∀ i : Nat, access_in_range (Arg.seq : Arg α) i = true) := by
  refine ⟨by decide, by decide, by decide, ?_, ?_, ?_, ?_, ?_, ?_⟩
  · intro a L i h
    simp [access_in_range, declared_length, requested_element, access, element_exists, h]
  · intro a L i h
    simp [access_in_range, declared_length, requested_element, access, element_exists, h]
  · intro a L i h
    simp [access_in_range, declared_length, requested_element, access, element_exists,
      Nat.mod_lt i h]
  · intro x i
    rfl
  · intro s i
    rfl
  · intro i
    rfl

/-- C15 (the code departs from the claim): both array overloads log a line for
index `i` exactly when `i` is at or above the declared length, and the line
carries `i` and `i % L`. For an `mmaps` array that is the element bound. For a
`streams` array it is not: the element requested is `i`, which differs from
`i % L` whenever a line is logged; at length 2 and index 2 the line names
stream 0 and the element requested is 2. -/
theorem C15_streams_diag_names_another_element :
    access (Arg.streams (0 : Nat) 2) 2 = (Bound.stream 0 2, [⟨2, .stream, 0⟩]) ∧
      requested_element (access (Arg.streams (0 : Nat) 2) 2).1 = some 2 ∧
      (∀ (a : α) (L i : Nat),
        (access (Arg.streams a L) i).2 = if L ≤ i then [⟨i, .stream, i % L⟩] else []) ∧
      (∀ (a : α) (L i : Nat),
        (access (Arg.mmaps a L) i).2 = if L ≤ i then [⟨i, .async_mmap, i % L⟩] else []) ∧
      (∀ (a : α) (L i : Nat) (d : Diag), d ∈ (access (Arg.mmaps a L) i).2 →
        d.invocation = i ∧ requested_element (access (Arg.mmaps a L) i).1 = some d.element) ∧
      (∀ (a : α) (L i : Nat) (d : Diag), 1 ≤ L → d ∈ (access (Arg.streams a L) i).2 →
        d.invocation = i ∧ requested_element (access (Arg.streams a L) i).1 = some i ∧
          d.element = i % L ∧ d.element ≠ i) := by
  refine ⟨by decide, by decide, ?_, ?_, ?_, ?_⟩
  · intro a L i
    simp [access]
  · intro a L i
    simp [access]
  · intro a L i d hd
    by_cases h : L ≤ i
    · simp [access, h] at hd
      subst hd
      simp [access, requested_element]
    · simp [access, h] at hd
  · intro a L i d hL hd
    by_cases h : L ≤ i
    · simp [access, h] at hd
      subst hd
      refine ⟨rfl, rfl, rfl, ?_⟩
      exact Nat.ne_of_lt (mod_lt_self_of_le L i hL h)
    · simp [access, h] at hd

/-- C16: the name takes no part in what is scheduled. For any two names the
named scalar form gives the same task state, and so does the named vectorized
form; each unnamed form gives the state of its named form called with the empty
name; and a call resolved to the named scalar form by a leading name gives the
same state whatever that name is. -/
theorem C16_name_does_not_change_schedule (step : Int) (length : Nat) (f : φ)
    (name1 name2 : String) (args : List (Bound α)) (vargs : List (Arg α)) (t : task α φ) :
    invoke_named step f name1 args t = invoke_named step f name2 args t ∧
      invoke_vec_named step length f name1 vargs t =
        invoke_vec_named step length f name2 vargs t ∧
      invoke step f args t = invoke_named step f "" args t ∧
      invoke_vec step length f vargs t = invoke_vec_named step length f "" vargs t ∧
      invoke_call step f (.chars name1 :: args) t =
        invoke_call step f (.chars name2 :: args) t ∧
      (invoke_named step f name1 args t).scheduled =
        t.scheduled ++ [⟨decide (step < 0), f, args⟩] ∧
      (invoke_vec_named step length f name1 vargs t).scheduled =
        t.scheduled ++ (List.range length).map
          (fun i => ⟨decide (step < 0), f, bound_args (resolve vargs i).1⟩) := by
  refine ⟨rfl, rfl, rfl, rfl, rfl, rfl, ?_⟩
  rw [invoke_vec_named_eq]

end task

end tapa

/-! ## Execution dispatcher: arguments at the call site -/

namespace tapa

namespace internal

variable {σ π : Type}

end internal

variable {σ π : Type}

end tapa
